import Mathlib

/-!
Verification development for the JSX-to-createElement text transformer
(`convert_jsx.py`).

The program is embedded shallowly over `List Char`.  Python regular
expressions are specialised to the concrete patterns the program uses;
wherever a pattern is deterministic after greedy/lazy analysis the
matcher below implements that determinisation directly.  `\w` and `\s`
are modelled at ASCII (the inputs of interest are ASCII).  Functions
that are not structurally recursive take a fuel argument; every wrapper
passes `length + 1` fuel or more, which is always sufficient because
each recursive step consumes at least one character.
-/

/-- Python `\s` (ASCII): space, tab, newline, carriage return, form feed,
vertical tab. -/
def pySpace (c : Char) : Bool :=
  c = ' ' || c = '\t' || c = '\n' || c = '\x0d' || c = '\x0c' || c = '\x0b'

/-- Python `\w` at ASCII: letters, digits and underscore. -/
def isWordChar (c : Char) : Bool :=
  c.isAlphanum || c = '_'

/-- Every character is whitespace (used for `\s*$`). -/
def allSpace (s : List Char) : Bool :=
  s.all pySpace

/-- Python `str.strip()`: drop whitespace from both ends. -/
def pyStrip (s : List Char) : List Char :=
  ((s.dropWhile pySpace).reverse.dropWhile pySpace).reverse

/-- The placeholder token `__PROTECTED_<n>__` written for match number `n`. -/
def placeholderTok (n : Nat) : List Char :=
  ("__PROTECTED_".data) ++ (Nat.repr n).data ++ ("__".data)

/-- Scan the text following a `\x7b` for the regex `[^{}]*\x7d`: returns the
span contents and the rest, or `none` if another brace ends the attempt. -/
def scanSpan : List Char → Option (List Char × List Char)
  | [] => none
  | c :: rest =>
    if c = '\x7d' then some ([], rest)
    else if c = '\x7b' then none
    else (scanSpan rest).map (fun p => (c :: p.1, p.2))

/-- One pass of `re.sub(r'\{[^{}]*\}', protect_expression, content)`:
left-to-right replacement of each non-nested brace span by its placeholder,
also returning the table of protected original texts in match order.
`k` is the index of the next match. -/
def protectGo : Nat → List Char → Nat → List Char × List (List Char)
  | 0, cs, _ => (cs, [])
  | _ + 1, [], _ => ([], [])
  | f + 1, c :: rest, k =>
    if c = '\x7b' then
      match scanSpan rest with
      | some (inner, rest') =>
        let r := protectGo f rest' (k + 1)
        (placeholderTok k ++ r.1, ('\x7b' :: (inner ++ ['\x7d'])) :: r.2)
      | none =>
        let r := protectGo f rest k
        (c :: r.1, r.2)
    else
      let r := protectGo f rest k
      (c :: r.1, r.2)

/-- The expression-protection pass of `convert_jsx_to_createElement`. -/
def protectExpressions (content : List Char) : List Char × List (List Char) :=
  protectGo (content.length + 1) content 0

/-- Python `str.replace`: replace every occurrence of `needle`, scanning left
to right, never rescanning replaced text. -/
def replaceAllGo : Nat → List Char → List Char → List Char → List Char
  | 0, _, _, s => s
  | _ + 1, _, _, [] => []
  | f + 1, needle, repl, c :: tl =>
    if needle.isPrefixOf (c :: tl) then
      repl ++ replaceAllGo f needle repl ((c :: tl).drop needle.length)
    else
      c :: replaceAllGo f needle repl tl

/-- Python `str.replace` wrapper (the program only replaces nonempty
placeholder tokens, so the empty-needle case is inert). -/
def replaceAll (needle repl s : List Char) : List Char :=
  match needle with
  | [] => s
  | _ :: _ => replaceAllGo (s.length + 1) needle repl s

/-- The restoration loop: `for idx, expr in enumerate(protected_expressions):
content = content.replace(f"__PROTECTED_{idx}__", expr)`, with `k` the index
of the first table entry. -/
def restoreAux : List (List Char) → Nat → List Char → List Char
  | [], _, s => s
  | e :: tl, k, s => restoreAux tl (k + 1) (replaceAll (placeholderTok k) e s)

/-- Scan for the regex `[^c]*c` for a stop character `c` (used for the
quoted-value and expression alternatives of the attribute pattern). -/
def scanUntil (stop : Char) : List Char → Option (List Char × List Char)
  | [] => none
  | c :: rest =>
    if c = stop then some ([], rest)
    else (scanUntil stop rest).map (fun p => (c :: p.1, p.2))

/-- Attribute value as matched by
`(?:=(?:\{([^}]*)\}|"([^"]*)"|'([^']*)'))?`: group 2, group 3, group 4, or
no value at all. -/
inductive AttrVal : Type
  | expr (e : List Char)
  | dq (t : List Char)
  | sq (t : List Char)
  | bare
deriving DecidableEq, Repr

/-- Match the optional value part of the attribute pattern at the current
position; `none` means the optional group matches empty (no value). -/
def matchVal : List Char → Option (AttrVal × List Char)
  | '=' :: '\x7b' :: r => (scanUntil '\x7d' r).map (fun p => (AttrVal.expr p.1, p.2))
  | '=' :: '\x22' :: r => (scanUntil '\x22' r).map (fun p => (AttrVal.dq p.1, p.2))
  | '=' :: '\x27' :: r => (scanUntil '\x27' r).map (fun p => (AttrVal.sq p.1, p.2))
  | _ => none

/-- The `(?:-\w+)*` extension of an attribute name (greedy). -/
def attrNameExt : Nat → List Char → List Char × List Char
  | 0, s => ([], s)
  | f + 1, s =>
    match s with
    | '-' :: rest =>
      let w := rest.takeWhile isWordChar
      if w = [] then ([], '-' :: rest)
      else
        let r := attrNameExt f (rest.dropWhile isWordChar)
        ('-' :: (w ++ r.1), r.2)
    | other => ([], other)

/-- Try the attribute pattern `(\w+(?:-\w+)*)(?:=(...))?` at the current
position: on success return the (name, value) pair and the rest of the
input.  When the optional value group fails it matches empty, so the `=`
and what follows are left unconsumed. -/
def matchAttrAt (s : List Char) : Option ((List Char × AttrVal) × List Char) :=
  let w := s.takeWhile isWordChar
  if w = [] then none
  else
    let s2 := s.dropWhile isWordChar
    let ext := attrNameExt (s2.length + 1) s2
    let name := w ++ ext.1
    match matchVal ext.2 with
    | some (v, rest) => some ((name, v), rest)
    | none => some ((name, AttrVal.bare), ext.2)

/-- `re.finditer(attr_pattern, attrs_str)`: scan left to right, collecting
non-overlapping matches. -/
def findAttrsGo : Nat → List Char → List (List Char × AttrVal)
  | 0, _ => []
  | _ + 1, [] => []
  | f + 1, c :: tl =>
    match matchAttrAt (c :: tl) with
    | some (a, rest) => a :: findAttrsGo f rest
    | none => findAttrsGo f tl

/-- All attribute matches of an attribute-list substring, in source order. -/
def findAttrs (s : List Char) : List (List Char × AttrVal) :=
  findAttrsGo (s.length + 1) s

/-- The value text the loop body emits: expression text verbatim, quoted
text re-quoted with single quotes, or `true`; an empty matched group is
falsy in Python, so it falls through to `true`. -/
def attrValueText : AttrVal → List Char
  | AttrVal.expr e => if e = [] then ("true".data) else e
  | AttrVal.dq t => if t = [] then ("true".data) else '\x27' :: (t ++ ['\x27'])
  | AttrVal.sq t => if t = [] then ("true".data) else '\x27' :: (t ++ ['\x27'])
  | AttrVal.bare => ("true".data)

/-- The name rewriting of the loop body: `class`, `for`, hyphenated names,
everything else unchanged. -/
def rewriteName (name : List Char) : List Char :=
  if name = ("class".data) then ("className".data)
  else if name = ("for".data) then ("htmlFor".data)
  else if '-' ∈ name then '\x27' :: (name ++ ['\x27'])
  else name

/-- One `f"{name}: {value}"` entry of the attribute loop. -/
def attrEntry (a : List Char × AttrVal) : List Char :=
  rewriteName a.1 ++ (": ".data) ++ attrValueText a.2

/-- `parse_attributes`: the object-literal string for a raw attribute-list
substring. -/
def parse_attributes (attrs_str : List Char) : List Char :=
  if pyStrip attrs_str = [] then ("null".data)
  else
    let attrs := (findAttrs attrs_str).map attrEntry
    if attrs = [] then ("null".data)
    else ("\x7b ".data) ++ List.intercalate (", ".data) attrs ++ (" \x7d".data)

/-- `convert_children`: quoted stripped text when no `<` occurs, otherwise
the raw text quoted as-is. -/
def convert_children (children_str indent : List Char) : List Char :=
  if ¬ ('<' ∈ children_str) then '\x27' :: (pyStrip children_str ++ ['\x27'])
  else '\x27' :: (children_str ++ ['\x27'])

/-- The lazy `([^>]*?)\/>\s*$` part of the self-closing pattern, applied to
the text after the tag name: the shortest `>`-free attribute span followed
by `/>` and trailing whitespace. -/
def selfCloseScan : List Char → Option (List Char)
  | [] => none
  | '/' :: '>' :: rest =>
    if allSpace rest then some []
    else (selfCloseScan ('>' :: rest)).map (fun a => '/' :: a)
  | c :: rest =>
    if c = '>' then none
    else (selfCloseScan rest).map (fun a => c :: a)

/-- `re.match(r'^<(\w+)([^>]*?)\/>\s*$', s)`: tag and attribute substring of
a self-closing element. -/
def selfClosing (s : List Char) : Option (List Char × List Char) :=
  match s with
  | '<' :: r =>
    let tag := r.takeWhile isWordChar
    if tag = [] then none
    else (selfCloseScan (r.dropWhile isWordChar)).map (fun attrs => (tag, attrs))
  | _ => none

/-- The `([^>]*?)>` part of the open-tag pattern: attributes up to the first
`>`, which the lazy star cannot cross. -/
def elemAttrScan (s : List Char) : Option (List Char × List Char) :=
  match s.dropWhile (fun c => ¬ (c = '>')) with
  | '>' :: rest => some (s.takeWhile (fun c => ¬ (c = '>')), rest)
  | _ => none

/-- The greedy `([\s\S]*)<\/tag>\s*$` part: the children are everything up
to the last occurrence of the closing tag that only whitespace follows. -/
def lastSplit (t rest : List Char) : Option (List Char) :=
  (List.range (rest.length + 1)).foldl
    (fun acc i =>
      if t.isPrefixOf (rest.drop i) ∧ allSpace ((rest.drop i).drop t.length)
      then some (rest.take i) else acc)
    none

/-- Backtracking of the greedy `\w+` tag against the backreference
`<\/\1>`: the engine tries the longest tag first and shortens it one word
character at a time, moving the dropped characters into the attribute
span.  `rtag` is the current tag candidate reversed, `wrest` the word
characters already given back, `r2` the text after the whole word run. -/
def elemMatchGo : List Char → List Char → List Char → Option (List Char × List Char × List Char)
  | [], _, _ => none
  | c :: rtag, wrest, r2 =>
    match elemAttrScan (wrest ++ r2) with
    | some (attrs, rest) =>
      match lastSplit (("</".data) ++ ((c :: rtag).reverse ++ (">".data))) rest with
      | some children => some ((c :: rtag).reverse, attrs, children)
      | none => elemMatchGo rtag (c :: wrest) r2
    | none => none

/-- `re.match(r'^<(\w+)([^>]*?)>([\s\S]*)<\/\1>\s*$', s)`: tag, attribute
substring and children of an element with a matching closing tag; the tag
is the longest prefix of the initial word run whose closing tag ends the
text (greedy `\w+` with backtracking against the backreference). -/
def elemMatch (s : List Char) : Option (List Char × List Char × List Char) :=
  match s with
  | '<' :: r =>
    let w := r.takeWhile isWordChar
    if w = [] then none
    else elemMatchGo w.reverse [] (r.dropWhile isWordChar)
  | _ => none

/-- `convert_jsx_element`: self-closing case, element-with-children case,
or pass-through. -/
def convert_jsx_element (jsx indent : List Char) : List Char :=
  match selfClosing (pyStrip jsx) with
  | some (tag, attrs) =>
    ("React.createElement(\x27".data) ++ tag ++ ("\x27, ".data)
      ++ parse_attributes attrs ++ (")".data)
  | none =>
    match elemMatch (pyStrip jsx) with
    | some (tag, attrs, children) =>
      let props := parse_attributes attrs
      if pyStrip children ≠ [] then
        let ce := convert_children (pyStrip children) (indent ++ ("  ".data))
        if ce ≠ [] then
          ("React.createElement(\n".data) ++ indent ++ ("  \x27".data) ++ tag
            ++ ("\x27,\n".data) ++ indent ++ ("  ".data) ++ props ++ (",\n".data)
            ++ indent ++ ("  ".data) ++ ce ++ ("\n".data) ++ indent ++ (")".data)
        else
          ("React.createElement(\x27".data) ++ tag ++ ("\x27, ".data)
            ++ props ++ (")".data)
      else
        ("React.createElement(\x27".data) ++ tag ++ ("\x27, ".data)
          ++ props ++ (")".data)
    | none => jsx

/-- The `<\/([^>]+)>\s*\);` tail of the multiline return pattern at the
current position: returns the matched closing tag text (part of group 2)
and the rest after the `;`. -/
def tryClose (s : List Char) : Option (List Char × List Char) :=
  match s with
  | '<' :: '/' :: r =>
    let nm := r.takeWhile (fun c => ¬ (c = '>'))
    if nm = [] then none
    else
      match r.dropWhile (fun c => ¬ (c = '>')) with
      | '>' :: r2 =>
        match r2.dropWhile pySpace with
        | ')' :: ';' :: rest => some (("</".data) ++ nm ++ (">".data), rest)
        | _ => none
      | _ => none
  | _ => none

/-- The second lazy star of the multiline pattern: the shortest span after
which `<\/[^>]+>\s*\);` matches. -/
def star2 : List Char → Option (List Char × List Char × List Char)
  | [] => none
  | c :: tl =>
    match tryClose (c :: tl) with
    | some (ct, rest) => some ([], ct, rest)
    | none => (star2 tl).map (fun x => (c :: x.1, x.2.1, x.2.2))

/-- The first lazy star of the multiline pattern: the shortest span ending
at a `>` after which the second star succeeds. -/
def star1 : List Char → Option (List Char × List Char × List Char × List Char)
  | [] => none
  | c :: tl =>
    if c = '>' then
      match star2 tl with
      | some (a2, ct, rest) => some ([], a2, ct, rest)
      | none => (star1 tl).map (fun x => (c :: x.1, x.2.1, x.2.2.1, x.2.2.2))
    else (star1 tl).map (fun x => (c :: x.1, x.2.1, x.2.2.1, x.2.2.2))

/-- Try the multiline pattern
`^(\s*)return\s+\(\s*\n?\s*(<[\s\S]*?>[\s\S]*?<\/[^>]+>)\s*\);` at a line
start: returns (leading whitespace, group 2, rest after the match). -/
def tryMatch1 (s : List Char) : Option (List Char × List Char × List Char) :=
  let ws1 := s.takeWhile pySpace
  let s1 := s.dropWhile pySpace
  if ("return".data).isPrefixOf s1 then
    let s2 := s1.drop 6
    if s2.takeWhile pySpace = [] then none
    else
      match s2.dropWhile pySpace with
      | '(' :: r =>
        match r.dropWhile pySpace with
        | '<' :: r2 =>
          match star1 r2 with
          | some (a1, a2, ct, rest) =>
            some (ws1, '<' :: (a1 ++ '>' :: (a2 ++ ct)), rest)
          | none => none
        | _ => none
      | _ => none
  else none

/-- Try the inline pattern `^(\s*)return\s+(<[^;]+>);` at a line start:
returns (leading whitespace, group 2, rest after the `;`). -/
def tryMatch2 (s : List Char) : Option (List Char × List Char × List Char) :=
  let ws1 := s.takeWhile pySpace
  let s1 := s.dropWhile pySpace
  if ("return".data).isPrefixOf s1 then
    let s2 := s1.drop 6
    if s2.takeWhile pySpace = [] then none
    else
      match s2.dropWhile pySpace with
      | '<' :: r =>
        let run := r.takeWhile (fun c => ¬ (c = ';'))
        match r.dropWhile (fun c => ¬ (c = ';')) with
        | ';' :: rest =>
          if 2 ≤ run.length ∧ run.getLast? = some '>' then
            some (ws1, '<' :: run, rest)
          else none
        | _ => none
      | _ => none
  else none

/-- The replacement text both return-statement substitutions build:
`f"{indent}return {convert_jsx_element(jsx.strip(), indent + '  ')};"`. -/
def returnRepl (ws1 g2 : List Char) : List Char :=
  ws1 ++ ("return ".data) ++ convert_jsx_element (pyStrip g2) (ws1 ++ ("  ".data))
    ++ (";".data)

/-- `re.sub` driver for the multiline pattern (MULTILINE `^`): attempt the
pattern at each line start, otherwise copy one character. -/
def sub1Go : Nat → List Char → Bool → List Char
  | 0, s, _ => s
  | _ + 1, [], _ => []
  | f + 1, c :: tl, atStart =>
    if atStart then
      match tryMatch1 (c :: tl) with
      | some (ws1, g2, rest) => returnRepl ws1 g2 ++ sub1Go f rest false
      | none => c :: sub1Go f tl (c = '\n')
    else c :: sub1Go f tl (c = '\n')

/-- The first return-statement substitution pass. -/
def sub1 (s : List Char) : List Char :=
  sub1Go (s.length + 1) s true

/-- `re.sub` driver for the inline pattern (MULTILINE `^`). -/
def sub2Go : Nat → List Char → Bool → List Char
  | 0, s, _ => s
  | _ + 1, [], _ => []
  | f + 1, c :: tl, atStart =>
    if atStart then
      match tryMatch2 (c :: tl) with
      | some (ws1, g2, rest) => returnRepl ws1 g2 ++ sub2Go f rest false
      | none => c :: sub2Go f tl (c = '\n')
    else c :: sub2Go f tl (c = '\n')

/-- The second return-statement substitution pass. -/
def sub2 (s : List Char) : List Char :=
  sub2Go (s.length + 1) s true

/-- The whole pipeline `convert_jsx_to_createElement`: protect expressions,
rewrite return statements (multiline pass then inline pass), restore. -/
def convert_jsx_to_createElement (content : List Char) : List Char :=
  let p := protectExpressions content
  restoreAux p.2 0 (sub2 (sub1 p.1))

/-- Protecting then immediately restoring, with no modification between:
the round-trip the specification asserts for the Expression Protector. -/
def protectRestore (content : List Char) : List Char :=
  let p := protectExpressions content
  restoreAux p.2 0 p.1

/-- The protection pattern `\{[^{}]*\}` has a match somewhere in the text. -/
def hasSpan : List Char → Bool
  | [] => false
  | c :: rest =>
    if c = '\x7b' then (scanSpan rest).isSome || hasSpan rest
    else hasSpan rest

/-- The multiline return pattern matches somewhere in the text. -/
def hasMatch1 : List Char → Bool → Bool
  | [], _ => false
  | c :: tl, atStart =>
    (atStart && (tryMatch1 (c :: tl)).isSome) || hasMatch1 tl (c = '\n')

/-- The inline return pattern matches somewhere in the text. -/
def hasMatch2 : List Char → Bool → Bool
  | [], _ => false
  | c :: tl, atStart =>
    (atStart && (tryMatch2 (c :: tl)).isSome) || hasMatch2 tl (c = '\n')

/-- Both ends of the character list are free of braces (the character class
`[^{}]`). -/
def braceFree (s : List Char) : Bool :=
  s.all (fun c => !(c = '\x7b' || c = '\x7d'))

/-- The letters `PROTECTED`, the distinguishing core of every placeholder
token. -/
def protWord : List Char := "PROTECTED".data

/-- Scanner for an occurrence of `needle` anywhere in the text (the infix
test the round-trip analysis is phrased with). -/
def hasOcc (needle : List Char) : List Char → Bool
  | [] => needle.isEmpty
  | c :: tl => needle.isPrefixOf (c :: tl) || hasOcc needle tl

/-- Numeric value of a decimal digit character. -/
def digitVal (c : Char) : Nat := c.toNat - 48

/-- Value of a decimal digit string, most significant digit first. -/
def listVal (l : List Char) : Nat :=
  l.foldl (fun a c => a * 10 + digitVal c) 0

/-- The shape of a protected buffer: chunks of the original text
interleaved with consecutively numbered placeholder tokens; the last two
arguments are the protected buffer and the original text it came from,
the table argument lists the recorded span texts in index order. -/
inductive Chain : Nat → List (List Char) → List Char → List Char → Prop
  | base (k : Nat) (X : List Char) : Chain k [] X X
  | step (k : Nat) (tbl : List (List Char)) (X e s' orig' : List Char) :
      Chain (k + 1) tbl s' orig' →
      Chain k (e :: tbl) (X ++ (placeholderTok k ++ s')) (X ++ (e ++ orig'))

/-- Scanning a brace-free span followed by a closing brace succeeds and
returns exactly that span. -/
theorem scanSpan_braceFree (e : List Char) (he : braceFree e = true) (r : List Char) :
    scanSpan (e ++ '\x7d' :: r) = some (e, r) := by
  induction e with
  | nil => simp [scanSpan]
  | cons c tl ih =>
    simp only [braceFree, List.all_cons, Bool.and_eq_true, Bool.not_eq_true',
      Bool.or_eq_false_iff, decide_eq_false_iff_not] at he
    simp [scanSpan, he.1.1, he.1.2, ih (by simpa [braceFree] using he.2)]

/-- If the protection pattern finds no match, protection is the identity and
records nothing, whatever the fuel. -/
theorem protectGo_id (f : Nat) : ∀ cs k, hasSpan cs = false → protectGo f cs k = (cs, []) := by
  induction f with
  | zero => intro cs k _; rfl
  | succ f ih =>
    intro cs k h
    cases cs with
    | nil => rfl
    | cons c rest =>
      by_cases hc : c = '\x7b'
      · subst hc
        cases hscan : scanSpan rest with
        | some p => simp [hasSpan, hscan] at h
        | none =>
          have h2 : hasSpan rest = false := by simpa [hasSpan, hscan] using h
          simp [protectGo, hscan, ih rest k h2]
      · have h2 : hasSpan rest = false := by simpa [hasSpan, hc] using h
        simp [protectGo, hc, ih rest k h2]

/-- If the multiline pattern never matches, the first substitution pass is
the identity, whatever the fuel. -/
theorem sub1Go_id (f : Nat) : ∀ cs b, hasMatch1 cs b = false → sub1Go f cs b = cs := by
  induction f with
  | zero => intro cs b _; rfl
  | succ f ih =>
    intro cs b h
    cases cs with
    | nil => rfl
    | cons c tl =>
      cases b with
      | false =>
        have h2 : hasMatch1 tl (decide (c = '\n')) = false := by
          simpa [hasMatch1] using h
        simp [sub1Go, ih tl _ h2]
      | true =>
        cases hm : tryMatch1 (c :: tl) with
        | some v => simp [hasMatch1, hm] at h
        | none =>
          have h2 : hasMatch1 tl (decide (c = '\n')) = false := by
            simpa [hasMatch1, hm] using h
          simp [sub1Go, hm, ih tl _ h2]

/-- If the inline pattern never matches, the second substitution pass is the
identity, whatever the fuel. -/
theorem sub2Go_id (f : Nat) : ∀ cs b, hasMatch2 cs b = false → sub2Go f cs b = cs := by
  induction f with
  | zero => intro cs b _; rfl
  | succ f ih =>
    intro cs b h
    cases cs with
    | nil => rfl
    | cons c tl =>
      cases b with
      | false =>
        have h2 : hasMatch2 tl (decide (c = '\n')) = false := by
          simpa [hasMatch2] using h
        simp [sub2Go, ih tl _ h2]
      | true =>
        cases hm : tryMatch2 (c :: tl) with
        | some v => simp [hasMatch2, hm] at h
        | none =>
          have h2 : hasMatch2 tl (decide (c = '\n')) = false := by
            simpa [hasMatch2, hm] using h
          simp [sub2Go, hm, ih tl _ h2]

/-- C3: on the attribute list `class="a" data-x="y" onClick={fn}` the
Attribute Translator returns exactly
`{ className: 'a', 'data-x': 'y', onClick: fn }`: `class` is renamed,
the hyphenated name becomes a single-quoted key, and entries keep the
source's left-to-right order joined by `, `. -/
theorem c3_attribute_list_translation :
    parse_attributes ("class=\x22a\x22 data-x=\x22y\x22 onClick=\x7bfn\x7d".data) =
      ("\x7b className: \x27a\x27, \x27data-x\x27: \x27y\x27, onClick: fn \x7d".data) := by
  decide

/-- C4 counterexample: the claim includes the empty string, but for
`a=""` the translator emits `a: true` (Python's emptiness test makes the
matched empty group falsy), not `a: ''`. -/
theorem c4_quoted_value_counterexample :
    parse_attributes ("a=\x22\x22".data) = ("\x7b a: true \x7d".data) ∧
    ¬ parse_attributes ("a=\x22\x22".data) = ("\x7b a: \x27\x27 \x7d".data) := by
  decide

/-- C4 amended: for every attribute occurrence whose value is a nonempty
double- or single-quoted string, the translator emits the text content
re-quoted with single quotes (the empty text content instead falls through
to `true`). -/
theorem c4_quoted_value_amended (s name : List Char) (v : AttrVal) (t : List Char)
    (hmem : (name, v) ∈ findAttrs s)
    (hv : v = AttrVal.dq t ∨ v = AttrVal.sq t) (ht : t ≠ []) :
    attrEntry (name, v) = rewriteName name ++ (": ".data) ++ ('\x27' :: (t ++ ['\x27'])) := by
  rcases hv with h | h <;> subst h <;> simp [attrEntry, attrValueText, ht]

/-- C4 witness: the amended statement at the concrete occurrence `x="a"`. -/
theorem c4_quoted_value_amended_witness :
    attrEntry (("x".data), AttrVal.dq ("a".data)) =
      rewriteName ("x".data) ++ (": ".data) ++ ('\x27' :: (("a".data) ++ ['\x27'])) :=
  c4_quoted_value_amended ("x=\x22a\x22".data) _ _ _ (by decide) (Or.inl rfl) (by decide)

/-- C10: an attribute occurrence whose matched value is the empty
expression, the empty double-quoted string or the empty single-quoted
string produces exactly the entry a valueless attribute produces, so empty
values are indistinguishable from absent values in the emitted literal. -/
theorem c10_empty_value_boolean (name : List Char) (v : AttrVal)
    (h : v = AttrVal.dq [] ∨ v = AttrVal.sq [] ∨ v = AttrVal.expr [] ∨ v = AttrVal.bare) :
    attrEntry (name, v) = attrEntry (name, AttrVal.bare) := by
  rcases h with h | h | h | h <;> subst h <;> rfl

/-- C10 witness: the three empty-valued forms and the valueless form all
yield `{ name: true }` for the attribute list itself. -/
theorem c10_empty_value_boolean_witness :
    attrEntry (("name".data), AttrVal.dq []) = attrEntry (("name".data), AttrVal.bare) ∧
    parse_attributes ("name=\x22\x22".data) = ("\x7b name: true \x7d".data) ∧
    parse_attributes ("name=\x27\x27".data) = ("\x7b name: true \x7d".data) ∧
    parse_attributes ("name=\x7b\x7d".data) = ("\x7b name: true \x7d".data) ∧
    parse_attributes ("name".data) = ("\x7b name: true \x7d".data) :=
  ⟨c10_empty_value_boolean _ _ (Or.inl rfl), by decide, by decide, by decide, by decide⟩

/-- C6: `<Input value={v} />` given directly to the Element Converter is
classified self-closing and becomes
`React.createElement('Input', { value: v })`; in general the self-closing
case produces the two-argument call with the tag as a string literal and
the translated attributes, with no third argument. -/
theorem c6_self_closing_conversion :
    convert_jsx_element ("<Input value=\x7bv\x7d />".data) [] =
      ("React.createElement(\x27Input\x27, \x7b value: v \x7d)".data) ∧
    ∀ jsx indent tag attrs, selfClosing (pyStrip jsx) = some (tag, attrs) →
      convert_jsx_element jsx indent =
        ("React.createElement(\x27".data) ++ tag ++ ("\x27, ".data)
          ++ parse_attributes attrs ++ (")".data) := by
  refine ⟨by decide, fun jsx indent tag attrs h => ?_⟩
  simp [convert_jsx_element, h]

/-- C6 witness: the general two-argument shape at the concrete input
`<img/>`. -/
theorem c6_self_closing_conversion_witness :
    convert_jsx_element ("<img/>".data) [] =
      ("React.createElement(\x27".data) ++ ("img".data) ++ ("\x27, ".data)
        ++ parse_attributes [] ++ (")".data) :=
  c6_self_closing_conversion.2 ("<img/>".data) [] ("img".data) [] (by decide)

/-- C7: `<br></br>` and `<br/>` both convert to
`React.createElement('br', null)`; an all-whitespace attribute list
translates to `null`, and an element whose trimmed children are empty is
emitted in the two-argument form that matches the self-closing shape. -/
theorem c7_empty_element_null :
    convert_jsx_element ("<br></br>".data) [] =
      ("React.createElement(\x27br\x27, null)".data) ∧
    convert_jsx_element ("<br/>".data) [] =
      ("React.createElement(\x27br\x27, null)".data) ∧
    (∀ s, pyStrip s = [] → parse_attributes s = ("null".data)) ∧
    ∀ jsx indent tag attrs children,
      selfClosing (pyStrip jsx) = none →
      elemMatch (pyStrip jsx) = some (tag, attrs, children) →
      pyStrip children = [] →
      convert_jsx_element jsx indent =
        ("React.createElement(\x27".data) ++ tag ++ ("\x27, ".data)
          ++ parse_attributes attrs ++ (")".data) := by
  refine ⟨by decide, by decide, fun s h => ?_, fun jsx indent tag attrs children h1 h2 h3 => ?_⟩
  · simp [parse_attributes, h]
  · simp [convert_jsx_element, h1, h2, h3]

/-- C7 witness: the empty-attribute and empty-children clauses at
concrete inputs. -/
theorem c7_empty_element_null_witness :
    parse_attributes ("   ".data) = ("null".data) ∧
    convert_jsx_element ("<p></p>".data) [] =
      ("React.createElement(\x27".data) ++ ("p".data) ++ ("\x27, ".data)
        ++ parse_attributes [] ++ (")".data) :=
  ⟨c7_empty_element_null.2.2.1 ("   ".data) (by decide),
   c7_empty_element_null.2.2.2 ("<p></p>".data) [] ("p".data) [] [] (by decide) (by decide)
     (by decide)⟩

/-- C8: the Children Converter returns the single-quoted stripped text when
no `<` occurs, and otherwise wraps the raw children text in single quotes
without converting nested elements; `<div>Hello</div>` therefore becomes a
three-argument call whose third argument is `'Hello'`. -/
theorem c8_children_literal :
    (∀ s indent, ¬ ('<' ∈ s) →
      convert_children s indent = '\x27' :: (pyStrip s ++ ['\x27'])) ∧
    (∀ s indent, '<' ∈ s →
      convert_children s indent = '\x27' :: (s ++ ['\x27'])) ∧
    convert_jsx_element ("<div>Hello</div>".data) [] =
      ("React.createElement(\n  \x27div\x27,\n  null,\n  \x27Hello\x27\n)".data) := by
  refine ⟨fun s indent h => ?_, fun s indent h => ?_, by decide⟩
  · simp [convert_children, h]
  · simp [convert_children, h]

/-- C8 witness: both children clauses at concrete inputs, including a
nested element left unconverted inside the quoted blob. -/
theorem c8_children_literal_witness :
    convert_children ("Hello".data) [] = '\x27' :: (pyStrip ("Hello".data) ++ ['\x27']) ∧
    convert_children ("a <b>c</b>".data) [] = '\x27' :: (("a <b>c</b>".data) ++ ['\x27']) :=
  ⟨c8_children_literal.1 ("Hello".data) [] (by decide),
   c8_children_literal.2.1 ("a <b>c</b>".data) [] (by decide)⟩

/-- C9: when a substring matches neither the self-closing nor the
open/close element pattern, the Element Converter returns its input
unchanged (the deliberate pass-through; the embedding is total, so no
path fails). -/
theorem c9_fallback_passthrough (jsx indent : List Char)
    (h1 : selfClosing (pyStrip jsx) = none)
    (h2 : elemMatch (pyStrip jsx) = none) :
    convert_jsx_element jsx indent = jsx := by
  simp [convert_jsx_element, h1, h2]

/-- C9 witness: the pass-through at the concrete non-JSX input `hello`. -/
theorem c9_fallback_passthrough_witness :
    convert_jsx_element ("hello".data) [] = ("hello".data) :=
  c9_fallback_passthrough ("hello".data) [] (by decide) (by decide)

/-- C5: a buffer in which the protection pattern and both return-statement
patterns find no match passes through the whole pipeline unchanged; in
particular `return x + 1;` is left byte-for-byte intact. -/
theorem c5_untouched_text (cs : List Char)
    (h0 : hasSpan cs = false)
    (h1 : hasMatch1 cs true = false)
    (h2 : hasMatch2 cs true = false) :
    convert_jsx_to_createElement cs = cs := by
  have hp : protectExpressions cs = (cs, []) := by
    unfold protectExpressions; exact protectGo_id _ cs 0 h0
  have hs1 : sub1 cs = cs := by
    unfold sub1; exact sub1Go_id _ cs true h1
  have hs2 : sub2 cs = cs := by
    unfold sub2; exact sub2Go_id _ cs true h2
  simp [convert_jsx_to_createElement, hp, hs1, hs2, restoreAux]

/-- C5 witness: the non-JSX return statement `return x + 1;` is unchanged. -/
theorem c5_untouched_text_witness :
    convert_jsx_to_createElement ("return x + 1;".data) = ("return x + 1;".data) :=
  c5_untouched_text ("return x + 1;".data) (by decide) (by decide) (by decide)

/-- C1 counterexample: on the single line `return <Tag name={v} />;` the
pipeline does not put the expression back as the attribute's value: the
brace span is protected before attribute parsing, so the attribute regex
sees the placeholder word, emits `name: true` plus a bogus
`__PROTECTED_0__: true` entry, and restoration rewrites the latter into
`{v}: true`. -/
theorem c1_pipeline_counterexample :
    convert_jsx_to_createElement ("return <Tag name=\x7bv\x7d />;".data) =
      ("return React.createElement(\x27Tag\x27, \x7b name: true, \x7bv\x7d: true \x7d);".data) ∧
    ¬ convert_jsx_to_createElement ("return <Tag name=\x7bv\x7d />;".data) =
      ("return React.createElement(\x27Tag\x27, \x7b name: v \x7d);".data) := by
  decide

/-- Protection of a buffer holding exactly one brace span: the brace-free
prefix and the span-free suffix pass through, the span becomes placeholder
`k`, and the span's full text is recorded. -/
theorem protect_single_span :
    ∀ (A : List Char) (f : Nat) (e B : List Char) (k : Nat),
      braceFree A = true → braceFree e = true → hasSpan B = false →
      A.length + e.length + 2 + B.length ≤ f →
      protectGo f (A ++ '\x7b' :: (e ++ '\x7d' :: B)) k =
        (A ++ (placeholderTok k ++ B), ['\x7b' :: (e ++ ['\x7d'])]) := by
  intro A
  induction A with
  | nil =>
    intro f e B k _ he hB hf
    cases f with
    | zero => omega
    | succ f =>
      have hscan := scanSpan_braceFree e he B
      have hrec := protectGo_id f B (k + 1) hB
      simp [protectGo, hscan, hrec]
  | cons a A ih =>
    intro f e B k hA he hB hf
    cases f with
    | zero => simp [List.length_cons] at hf
    | succ f =>
      simp only [braceFree, List.all_cons, Bool.and_eq_true, Bool.not_eq_true',
        Bool.or_eq_false_iff, decide_eq_false_iff_not] at hA
      have hA' : braceFree A = true := by
        simp only [braceFree]; exact hA.2
      have ha : ¬ (a = '\x7b') := hA.1.1
      have hrec := ih f e B k hA' he hB (by simp only [List.length_cons] at hf; omega)
      simp [protectGo, ha, hrec]

/-- Replacement on an empty haystack is empty, whatever the fuel. -/
theorem replaceAllGo_nil (f : Nat) (needle repl : List Char) :
    replaceAllGo f needle repl [] = [] := by
  cases f <;> rfl

/-- A list is a `isPrefixOf`-prefix of itself followed by anything. -/
theorem isPrefixOf_append_self : ∀ (l t : List Char), l.isPrefixOf (l ++ t) = true := by
  intro l
  induction l with
  | nil => intro t; simp [List.isPrefixOf]
  | cons a l ih => intro t; simp [List.isPrefixOf, ih]

/-- Replacement scans over a block in which the needle's first character
does not occur: the block is copied unchanged and one fuel unit is spent
per character. -/
theorem replaceAllGo_skip (n : Char) (ns repl : List Char) :
    ∀ (X Y : List Char) (f : Nat), n ∉ X →
      replaceAllGo (X.length + f) (n :: ns) repl (X ++ Y) =
        X ++ replaceAllGo f (n :: ns) repl Y := by
  intro X
  induction X with
  | nil => intro Y f _; simp
  | cons x X ih =>
    intro Y f hx
    have hne : (n == x) = false := by
      have : ¬ (n = x) := fun hEq => hx (hEq ▸ List.mem_cons_self x X)
      simp [this]
    have hcond : (n :: ns).isPrefixOf (x :: (X ++ Y)) = false := by
      simp [List.isPrefixOf, hne]
    have hl : (x :: X).length + f = (X.length + f) + 1 := by
      simp only [List.length_cons]; omega
    rw [hl]
    simp only [List.cons_append, List.append_eq, replaceAllGo, hcond, Bool.false_eq_true,
      if_false]
    rw [ih Y f (fun hm => hx (List.mem_cons_of_mem x hm))]

/-- Replacement at an occurrence of the needle: the replacement text is
emitted and scanning resumes after the needle. -/
theorem replaceAllGo_hit (n : Char) (ns repl Y : List Char) (f : Nat) :
    replaceAllGo (f + 1) (n :: ns) repl ((n :: ns) ++ Y) =
      repl ++ replaceAllGo f (n :: ns) repl Y := by
  have hpre := isPrefixOf_append_self (n :: ns) Y
  have hdrop : ((n :: ns) ++ Y).drop (n :: ns).length = Y := List.drop_left (n :: ns) Y
  simp only [List.cons_append] at hpre hdrop ⊢
  simp [replaceAllGo, hpre, hdrop]

/-- Restoring one protected span: the placeholder begins with an
underscore, so in a haystack made of an underscore-free prefix, the
placeholder for index `k`, and an underscore-free suffix, exactly the
placeholder is replaced by the recorded text. -/
theorem restore_one (k : Nat) (e X Y : List Char)
    (hX : '_' ∉ X) (hY : '_' ∉ Y) :
    restoreAux [e] k (X ++ (placeholderTok k ++ Y)) = X ++ (e ++ Y) := by
  have htok : placeholderTok k
      = '_' :: (("_PROTECTED_".data) ++ ((Nat.repr k).data ++ ("__".data))) := by
    simp [placeholderTok]
  have h0 : restoreAux [e] k (X ++ (placeholderTok k ++ Y))
      = replaceAll (placeholderTok k) e (X ++ (placeholderTok k ++ Y)) := rfl
  rw [h0, htok]
  set R := ("_PROTECTED_".data) ++ ((Nat.repr k).data ++ ("__".data)) with hR
  show replaceAllGo ((X ++ (('_' :: R) ++ Y)).length + 1) ('_' :: R) e
      (X ++ (('_' :: R) ++ Y)) = X ++ (e ++ Y)
  have hL : (X ++ (('_' :: R) ++ Y)).length + 1
      = X.length + ((('_' :: R).length + Y.length) + 1) := by
    simp [List.length_append]; omega
  rw [hL, replaceAllGo_skip '_' R e X (('_' :: R) ++ Y) _ hX]
  have hmid := replaceAllGo_hit '_' R e Y (('_' :: R).length + Y.length)
  rw [hmid]
  have htail : replaceAllGo (('_' :: R).length + Y.length) ('_' :: R) e Y = Y := by
    have h1 : replaceAllGo (Y.length + ('_' :: R).length) ('_' :: R) e (Y ++ [])
        = Y ++ replaceAllGo (('_' :: R).length) ('_' :: R) e [] :=
      replaceAllGo_skip '_' R e Y [] (('_' :: R).length) hY
    rw [replaceAllGo_nil] at h1
    simpa [Nat.add_comm] using h1
  rw [htail]

/-- C1 amended: for every single-line buffer `return <Tag name={expr} />;`
with `expr` a non-empty run of non-brace characters, the pipeline produces
`return React.createElement('Tag', \x7b name: true, \x7bexpr\x7d: true \x7d);`:
protection hides the braces from the attribute regex, so `name` is parsed
as valueless and the placeholder as a second valueless attribute, and
restoration turns the placeholder key back into the brace span. -/
theorem c1_pipeline_amended (e : List Char) (hne : e ≠ []) (hbf : braceFree e = true) :
    convert_jsx_to_createElement
        (("return <Tag name=".data) ++ '\x7b' :: (e ++ '\x7d' :: (" />;".data))) =
      ("return React.createElement(\x27Tag\x27, \x7b name: true, ".data)
        ++ ('\x7b' :: (e ++ ['\x7d'])) ++ (": true \x7d);".data) := by
  have hA : braceFree ("return <Tag name=".data) = true := by decide
  have hB : hasSpan (" />;".data) = false := by decide
  have hprot := protect_single_span ("return <Tag name=".data)
      (((("return <Tag name=".data) ++ '\x7b' :: (e ++ '\x7d' :: (" />;".data))).length) + 1)
      e (" />;".data) 0 hA hbf hB
      (by simp [List.length_append, List.length_cons]; omega)
  have hP : ("return <Tag name=".data) ++ (placeholderTok 0 ++ (" />;".data))
      = ("return <Tag name=__PROTECTED_0__ />;".data) := by decide
  have hsub : sub2 (sub1 ("return <Tag name=__PROTECTED_0__ />;".data))
      = ("return React.createElement(\x27Tag\x27, \x7b name: true, __PROTECTED_0__: true \x7d);".data) := by
    decide
  have hQ : ("return React.createElement(\x27Tag\x27, \x7b name: true, __PROTECTED_0__: true \x7d);".data)
      = ("return React.createElement(\x27Tag\x27, \x7b name: true, ".data)
          ++ (placeholderTok 0 ++ (": true \x7d);".data)) := by decide
  have hpipe : convert_jsx_to_createElement
      (("return <Tag name=".data) ++ '\x7b' :: (e ++ '\x7d' :: (" />;".data)))
      = restoreAux ['\x7b' :: (e ++ ['\x7d'])] 0
          (sub2 (sub1 (("return <Tag name=".data) ++ (placeholderTok 0 ++ (" />;".data))))) := by
    unfold convert_jsx_to_createElement protectExpressions
    rw [hprot]
  rw [hpipe, hP, hsub, hQ,
    restore_one 0 ('\x7b' :: (e ++ ['\x7d'])) _ _ (by decide) (by decide)]
  simp [List.append_assoc]

/-- C1 witness: the amended pipeline behaviour at the concrete expression
`v`. -/
theorem c1_pipeline_amended_witness :
    convert_jsx_to_createElement
        (("return <Tag name=".data) ++ '\x7b' :: (("v".data) ++ '\x7d' :: (" />;".data))) =
      ("return React.createElement(\x27Tag\x27, \x7b name: true, ".data)
        ++ ('\x7b' :: (("v".data) ++ ['\x7d'])) ++ (": true \x7d);".data) :=
  c1_pipeline_amended ("v".data) (by decide) (by decide)

/-- Accumulator lemma for `Nat.toDigitsCore`: the digits are prepended to
the accumulator. -/
theorem toDigitsCore_acc (f : Nat) :
    ∀ n acc, Nat.toDigitsCore 10 f n acc = Nat.toDigitsCore 10 f n [] ++ acc := by
  induction f with
  | zero => intro n acc; rfl
  | succ f ih =>
    intro n acc
    simp only [Nat.toDigitsCore]
    by_cases h : n / 10 = 0
    · simp [h]
    · simp only [h, if_false]
      rw [ih (n / 10) [Nat.digitChar (n % 10)], ih (n / 10) (Nat.digitChar (n % 10) :: acc)]
      simp

/-- Fuel irrelevance for `Nat.toDigitsCore` once the fuel exceeds the
number. -/
theorem toDigitsCore_fuel :
    ∀ f g n, n < f → n < g →
      Nat.toDigitsCore 10 f n [] = Nat.toDigitsCore 10 g n [] := by
  intro f
  induction f with
  | zero => intro g n h; omega
  | succ f ih =>
    intro g n hf hg
    cases g with
    | zero => omega
    | succ g =>
      simp only [Nat.toDigitsCore]
      by_cases h : n / 10 = 0
      · simp [h]
      · simp only [h, if_false]
        rw [toDigitsCore_acc f, toDigitsCore_acc g,
          ih g (n / 10) (by omega) (by omega)]

/-- The decimal digit list of `Nat.repr`. -/
theorem repr_data (n : Nat) : (Nat.repr n).data = Nat.toDigitsCore 10 (n + 1) n [] := rfl

/-- Unfolding step for the digit list of a number of two or more digits. -/
theorem repr_step (n : Nat) (h : ¬ n / 10 = 0) :
    Nat.toDigitsCore 10 (n + 1) n []
      = Nat.toDigitsCore 10 (n / 10 + 1) (n / 10) [] ++ [Nat.digitChar (n % 10)] := by
  have h1 : Nat.toDigitsCore 10 (n + 1) n []
      = Nat.toDigitsCore 10 n (n / 10) [Nat.digitChar (n % 10)] := by
    simp only [Nat.toDigitsCore, h, if_false]
  rw [h1, toDigitsCore_acc n (n / 10) [Nat.digitChar (n % 10)],
    toDigitsCore_fuel n (n / 10 + 1) (n / 10) (by omega) (by omega)]

/-- Valuation of a digit list extended by one digit on the right. -/
theorem listVal_append (A : List Char) (c : Char) :
    listVal (A ++ [c]) = listVal A * 10 + digitVal c := by
  simp [listVal, List.foldl_append]

/-- `digitVal` inverts `Nat.digitChar` on decimal digits. -/
theorem digitVal_digitChar (m : Nat) (h : m < 10) : digitVal (Nat.digitChar m) = m := by
  interval_cases m <;> decide

/-- Decimal digit characters are never an underscore. -/
theorem digitChar_ne_underscore (m : Nat) (h : m < 10) : ¬ Nat.digitChar m = '_' := by
  interval_cases m <;> decide

/-- The digit list of `Nat.repr` evaluates back to the number. -/
theorem repr_val : ∀ n : Nat, listVal (Nat.toDigitsCore 10 (n + 1) n []) = n := by
  intro n
  induction n using Nat.strong_induction_on with
  | _ n ih =>
    by_cases h : n / 10 = 0
    · have hstep : Nat.toDigitsCore 10 (n + 1) n [] = [Nat.digitChar (n % 10)] := by
        simp [Nat.toDigitsCore, h]
      rw [hstep]
      have := digitVal_digitChar (n % 10) (by omega)
      simp [listVal, this]
      omega
    · rw [repr_step n h, listVal_append, ih (n / 10) (by omega),
        digitVal_digitChar (n % 10) (by omega)]
      omega

/-- `Nat.repr` is injective on digit lists. -/
theorem repr_data_inj (j m : Nat) (h : (Nat.repr j).data = (Nat.repr m).data) : j = m := by
  have hj := repr_val j
  have hm := repr_val m
  rw [repr_data, repr_data] at h
  rw [h] at hj
  omega

/-- Every character placed by `Nat.toDigitsCore` is a digit character of a
value below ten, unless it came from the accumulator. -/
theorem toDigitsCore_mem (f : Nat) :
    ∀ n acc c, c ∈ Nat.toDigitsCore 10 f n acc →
      c ∈ acc ∨ ∃ m, m < 10 ∧ c = Nat.digitChar m := by
  induction f with
  | zero => intro n acc c hc; exact Or.inl hc
  | succ f ih =>
    intro n acc c hc
    simp only [Nat.toDigitsCore] at hc
    by_cases h : n / 10 = 0
    · simp only [h, if_true] at hc
      rcases List.mem_cons.mp hc with h1 | h1
      · exact Or.inr ⟨n % 10, by omega, h1⟩
      · exact Or.inl h1
    · simp only [h, if_false] at hc
      rcases ih (n / 10) (Nat.digitChar (n % 10) :: acc) c hc with h1 | h1
      · rcases List.mem_cons.mp h1 with h2 | h2
        · exact Or.inr ⟨n % 10, by omega, h2⟩
        · exact Or.inl h2
      · exact Or.inr h1

/-- No character of the digit list of `Nat.repr` is an underscore. -/
theorem repr_data_ne_underscore (n : Nat) (c : Char) (hc : c ∈ (Nat.repr n).data) :
    ¬ c = '_' := by
  rw [repr_data] at hc
  rcases toDigitsCore_mem (n + 1) n [] c hc with h | ⟨m, hm, rfl⟩
  · cases h
  · exact digitChar_ne_underscore m hm

/-- The digit list of `Nat.repr` is never empty. -/
theorem repr_data_ne_nil (n : Nat) : ¬ (Nat.repr n).data = [] := by
  rw [repr_data]
  by_cases h : n / 10 = 0
  · simp [Nat.toDigitsCore, h]
  · rw [repr_step n h]
    simp

/-- A successful prefix test survives shortening the needle to a prefix of
itself. -/
theorem isPrefixOf_weaken (u v : List Char) :
    ∀ s, (u ++ v).isPrefixOf s = true → u.isPrefixOf s = true := by
  induction u with
  | nil => intro s _; simp [List.isPrefixOf]
  | cons a u ih =>
    intro s h
    cases s with
    | nil => simp [List.isPrefixOf] at h
    | cons b s =>
      simp only [List.cons_append, List.isPrefixOf, Bool.and_eq_true] at h ⊢
      exact ⟨h.1, ih s h.2⟩

/-- A failing prefix test on a shortened needle forces failure on the full
needle. -/
theorem isPrefixOf_false_mono (u v s : List Char) (h : u.isPrefixOf s = false) :
    (u ++ v).isPrefixOf s = false := by
  cases hp : (u ++ v).isPrefixOf s with
  | false => rfl
  | true => rw [isPrefixOf_weaken u v s hp] at h; cases h

/-- Prefix tests cancel a common prefix. -/
theorem isPrefixOf_cancel (u : List Char) :
    ∀ v w, (u ++ v).isPrefixOf (u ++ w) = v.isPrefixOf w := by
  induction u with
  | nil => intro v w; rfl
  | cons a u ih => intro v w; simp [List.isPrefixOf, ih]

/-- Prefix test failure by a head mismatch. -/
theorem isPrefixOf_cons_ne (n c : Char) (ns t : List Char) (h : ¬ n = c) :
    (n :: ns).isPrefixOf (c :: t) = false := by
  simp [List.isPrefixOf, h]

/-- A successful prefix test extends over a longer haystack. -/
theorem isPrefixOf_extend (u : List Char) :
    ∀ s t, u.isPrefixOf s = true → u.isPrefixOf (s ++ t) = true := by
  induction u with
  | nil => intro s t _; simp [List.isPrefixOf]
  | cons a u ih =>
    intro s t h
    cases s with
    | nil => simp [List.isPrefixOf] at h
    | cons b s =>
      simp only [List.cons_append, List.isPrefixOf, Bool.and_eq_true] at h ⊢
      exact ⟨h.1, ih s t h.2⟩

/-- A nonempty needle does not occur in the empty text. -/
theorem hasOcc_nil_of_ne (N : List Char) (hN : ¬ N = []) : hasOcc N [] = false := by
  cases N with
  | nil => exact absurd rfl hN
  | cons a t => rfl

/-- No occurrence in a cons gives no occurrence in its tail. -/
theorem hasOcc_cons_false (N : List Char) (c : Char) (tl : List Char)
    (h : hasOcc N (c :: tl) = false) : hasOcc N tl = false := by
  cases hocc : hasOcc N tl with
  | false => rfl
  | true => simp [hasOcc, hocc] at h

/-- No occurrence in a concatenation gives no occurrence in the left part. -/
theorem hasOcc_append_left (N : List Char) (hN : ¬ N = []) :
    ∀ A B, hasOcc N (A ++ B) = false → hasOcc N A = false := by
  intro A
  induction A with
  | nil => intro B _; exact hasOcc_nil_of_ne N hN
  | cons a A ih =>
    intro B h
    rw [List.cons_append] at h
    have h2 : hasOcc N (A ++ B) = false := hasOcc_cons_false N a (A ++ B) h
    have h1 : N.isPrefixOf (a :: (A ++ B)) = false := by
      cases hp : N.isPrefixOf (a :: (A ++ B)) with
      | false => rfl
      | true => simp [hasOcc, hp] at h
    have h1' : N.isPrefixOf (a :: A) = false := by
      cases hp : N.isPrefixOf (a :: A) with
      | false => rfl
      | true =>
        have := isPrefixOf_extend N (a :: A) B hp
        rw [List.cons_append] at this
        rw [this] at h1
        cases h1
    simp [hasOcc, h1', ih B h2]

/-- No occurrence in a concatenation gives no occurrence in the right part. -/
theorem hasOcc_append_right (N : List Char) :
    ∀ A B, hasOcc N (A ++ B) = false → hasOcc N B = false := by
  intro A
  induction A with
  | nil => intro B h; exact h
  | cons a A ih =>
    intro B h
    rw [List.cons_append] at h
    exact ih B (hasOcc_cons_false N a (A ++ B) h)

/-- A suffix of a concatenation is a suffix of the right part, or consists
of a nonempty suffix of the left part glued onto the whole right part. -/
theorem suffix_split (A : List Char) :
    ∀ B s₀, s₀ <:+ (A ++ B) →
      s₀ <:+ B ∨ ∃ A', A' <:+ A ∧ ¬ A' = [] ∧ s₀ = A' ++ B := by
  induction A with
  | nil => intro B s₀ h; exact Or.inl (by simpa using h)
  | cons a A ih =>
    intro B s₀ h
    rw [List.cons_append, List.suffix_cons_iff] at h
    rcases h with h | h
    · exact Or.inr ⟨a :: A, List.suffix_refl _, by simp, by simpa using h⟩
    · rcases ih B s₀ h with h1 | ⟨A', hA', hne, rfl⟩
      · exact Or.inl h1
      · exact Or.inr ⟨A', hA'.trans (List.suffix_cons a A), hne, rfl⟩

theorem prefix_block_p12 (X Z : List Char)
    (hX : hasOcc ("PROTECTED".data) X = false) (hne : ¬ X = [])
    (hZ : Z = [] ∨ ∃ W, Z = '_' :: '_' :: W) :
    ("__PROTECTED_".data).isPrefixOf (X ++ Z) = false := by
  rcases X with _ | ⟨a1, X⟩
  · exact absurd rfl hne
  rcases X with _ | ⟨a2, X⟩
  · rcases hZ with rfl | ⟨W, rfl⟩ <;> simp [List.isPrefixOf]
  rcases X with _ | ⟨a3, X⟩
  · rcases hZ with rfl | ⟨W, rfl⟩ <;> simp [List.isPrefixOf]
  rcases X with _ | ⟨a4, X⟩
  · rcases hZ with rfl | ⟨W, rfl⟩ <;> simp [List.isPrefixOf]
  rcases X with _ | ⟨a5, X⟩
  · rcases hZ with rfl | ⟨W, rfl⟩ <;> simp [List.isPrefixOf]
  rcases X with _ | ⟨a6, X⟩
  · rcases hZ with rfl | ⟨W, rfl⟩ <;> simp [List.isPrefixOf]
  rcases X with _ | ⟨a7, X⟩
  · rcases hZ with rfl | ⟨W, rfl⟩ <;> simp [List.isPrefixOf]
  rcases X with _ | ⟨a8, X⟩
  · rcases hZ with rfl | ⟨W, rfl⟩ <;> simp [List.isPrefixOf]
  rcases X with _ | ⟨a9, X⟩
  · rcases hZ with rfl | ⟨W, rfl⟩ <;> simp [List.isPrefixOf]
  rcases X with _ | ⟨a10, X⟩
  · rcases hZ with rfl | ⟨W, rfl⟩ <;> simp [List.isPrefixOf]
  rcases X with _ | ⟨a11, X⟩
  · rcases hZ with rfl | ⟨W, rfl⟩ <;> simp [List.isPrefixOf]
  rcases X with _ | ⟨a12, X⟩
  · rcases hZ with rfl | ⟨W, rfl⟩
    · simp [List.isPrefixOf]
    · by_contra hcon
      rw [Bool.not_eq_false] at hcon
      simp only [List.cons_append, List.nil_append, List.isPrefixOf, Bool.and_eq_true,
        beq_iff_eq] at hcon
      obtain ⟨h1, h2, h3, h4, h5, h6, h7, h8, h9, h10, h11, -, -⟩ := hcon
      subst h1; subst h2; subst h3; subst h4; subst h5; subst h6; subst h7; subst h8
      subst h9; subst h10; subst h11
      exact absurd hX (by decide)
  · by_contra hcon
    rw [Bool.not_eq_false] at hcon
    simp only [List.cons_append, List.isPrefixOf, Bool.and_eq_true, beq_iff_eq] at hcon
    obtain ⟨h1, h2, h3, h4, h5, h6, h7, h8, h9, h10, h11, h12, -⟩ := hcon
    subst h1; subst h2; subst h3; subst h4; subst h5; subst h6; subst h7; subst h8
    subst h9; subst h10; subst h11; subst h12
    simp [hasOcc, List.isPrefixOf] at hX

theorem prefix_block_p10 (X Z : List Char)
    (hX : hasOcc ("PROTECTED".data) X = false)
    (hZ : Z = [] ∨ ∃ W, Z = '_' :: '_' :: W) :
    ("PROTECTED_".data).isPrefixOf (X ++ Z) = false := by
  rcases X with _ | ⟨a1, X⟩
  · rcases hZ with rfl | ⟨W, rfl⟩ <;> simp [List.isPrefixOf]
  rcases X with _ | ⟨a2, X⟩
  · rcases hZ with rfl | ⟨W, rfl⟩ <;> simp [List.isPrefixOf]
  rcases X with _ | ⟨a3, X⟩
  · rcases hZ with rfl | ⟨W, rfl⟩ <;> simp [List.isPrefixOf]
  rcases X with _ | ⟨a4, X⟩
  · rcases hZ with rfl | ⟨W, rfl⟩ <;> simp [List.isPrefixOf]
  rcases X with _ | ⟨a5, X⟩
  · rcases hZ with rfl | ⟨W, rfl⟩ <;> simp [List.isPrefixOf]
  rcases X with _ | ⟨a6, X⟩
  · rcases hZ with rfl | ⟨W, rfl⟩ <;> simp [List.isPrefixOf]
  rcases X with _ | ⟨a7, X⟩
  · rcases hZ with rfl | ⟨W, rfl⟩ <;> simp [List.isPrefixOf]
  rcases X with _ | ⟨a8, X⟩
  · rcases hZ with rfl | ⟨W, rfl⟩ <;> simp [List.isPrefixOf]
  rcases X with _ | ⟨a9, X⟩
  · rcases hZ with rfl | ⟨W, rfl⟩ <;> simp [List.isPrefixOf]
  rcases X with _ | ⟨a10, X⟩
  · rcases hZ with rfl | ⟨W, rfl⟩
    · simp [List.isPrefixOf]
    · by_contra hcon
      rw [Bool.not_eq_false] at hcon
      simp only [List.cons_append, List.nil_append, List.isPrefixOf, Bool.and_eq_true,
        beq_iff_eq] at hcon
      obtain ⟨h1, h2, h3, h4, h5, h6, h7, h8, h9, -, -⟩ := hcon
      subst h1; subst h2; subst h3; subst h4; subst h5; subst h6; subst h7; subst h8
      subst h9
      exact absurd hX (by decide)
  · by_contra hcon
    rw [Bool.not_eq_false] at hcon
    simp only [List.cons_append, List.isPrefixOf, Bool.and_eq_true, beq_iff_eq] at hcon
    obtain ⟨h1, h2, h3, h4, h5, h6, h7, h8, h9, h10, -⟩ := hcon
    subst h1; subst h2; subst h3; subst h4; subst h5; subst h6; subst h7; subst h8
    subst h9; subst h10
    simp [hasOcc, List.isPrefixOf] at hX

theorem prefix_block_p11 (X Z : List Char)
    (hX : hasOcc ("PROTECTED".data) X = false)
    (hZ : Z = [] ∨ ∃ W, Z = '_' :: '_' :: W) :
    ("_PROTECTED_".data).isPrefixOf (X ++ Z) = false := by
  rcases X with _ | ⟨a1, X⟩
  · rcases hZ with rfl | ⟨W, rfl⟩ <;> simp [List.isPrefixOf]
  rcases X with _ | ⟨a2, X⟩
  · rcases hZ with rfl | ⟨W, rfl⟩ <;> simp [List.isPrefixOf]
  rcases X with _ | ⟨a3, X⟩
  · rcases hZ with rfl | ⟨W, rfl⟩ <;> simp [List.isPrefixOf]
  rcases X with _ | ⟨a4, X⟩
  · rcases hZ with rfl | ⟨W, rfl⟩ <;> simp [List.isPrefixOf]
  rcases X with _ | ⟨a5, X⟩
  · rcases hZ with rfl | ⟨W, rfl⟩ <;> simp [List.isPrefixOf]
  rcases X with _ | ⟨a6, X⟩
  · rcases hZ with rfl | ⟨W, rfl⟩ <;> simp [List.isPrefixOf]
  rcases X with _ | ⟨a7, X⟩
  · rcases hZ with rfl | ⟨W, rfl⟩ <;> simp [List.isPrefixOf]
  rcases X with _ | ⟨a8, X⟩
  · rcases hZ with rfl | ⟨W, rfl⟩ <;> simp [List.isPrefixOf]
  rcases X with _ | ⟨a9, X⟩
  · rcases hZ with rfl | ⟨W, rfl⟩ <;> simp [List.isPrefixOf]
  rcases X with _ | ⟨a10, X⟩
  · rcases hZ with rfl | ⟨W, rfl⟩ <;> simp [List.isPrefixOf]
  rcases X with _ | ⟨a11, X⟩
  · rcases hZ with rfl | ⟨W, rfl⟩
    · simp [List.isPrefixOf]
    · by_contra hcon
      rw [Bool.not_eq_false] at hcon
      simp only [List.cons_append, List.nil_append, List.isPrefixOf, Bool.and_eq_true,
        beq_iff_eq] at hcon
      obtain ⟨h1, h2, h3, h4, h5, h6, h7, h8, h9, h10, -, -⟩ := hcon
      subst h1; subst h2; subst h3; subst h4; subst h5; subst h6; subst h7; subst h8
      subst h9; subst h10
      exact absurd hX (by decide)
  · by_contra hcon
    rw [Bool.not_eq_false] at hcon
    simp only [List.cons_append, List.isPrefixOf, Bool.and_eq_true, beq_iff_eq] at hcon
    obtain ⟨h1, h2, h3, h4, h5, h6, h7, h8, h9, h10, h11, -⟩ := hcon
    subst h1; subst h2; subst h3; subst h4; subst h5; subst h6; subst h7; subst h8
    subst h9; subst h10; subst h11
    simp [hasOcc, List.isPrefixOf] at hX

theorem tok_eq (m : Nat) :
    placeholderTok m
      = '_' :: '_' :: 'P' :: 'R' :: 'O' :: 'T' :: 'E' :: 'C' :: 'T' :: 'E' :: 'D' :: '_'
          :: ((Nat.repr m).data ++ ('_' :: '_' :: [])) := by
  simp [placeholderTok]

theorem tok_cons (m : Nat) (Z : List Char) :
    placeholderTok m ++ Z
      = '_' :: '_' :: 'P' :: 'R' :: 'O' :: 'T' :: 'E' :: 'C' :: 'T' :: 'E' :: 'D' :: '_'
          :: ((Nat.repr m).data ++ ('_' :: '_' :: Z)) := by
  simp [placeholderTok, List.append_assoc]

theorem tok_split (m : Nat) :
    placeholderTok m
      = ("__PROTECTED_".data) ++ ((Nat.repr m).data ++ ("__".data)) := by
  simp [placeholderTok, List.append_assoc]

theorem digits_ne_not_prefix :
    ∀ (dk dm U V : List Char),
      (∀ c ∈ dk, ¬ c = '_') → (∀ c ∈ dm, ¬ c = '_') → ¬ dk = dm →
      (dk ++ ('_' :: U)).isPrefixOf (dm ++ ('_' :: '_' :: V)) = false := by
  intro dk
  induction dk with
  | nil =>
    intro dm U V _ hdm hne
    cases dm with
    | nil => exact absurd rfl hne
    | cons e dm' =>
      have he : ¬ ('_' : Char) = e := fun h => hdm e (List.mem_cons_self e dm') h.symm
      simp only [List.nil_append, List.cons_append]
      exact isPrefixOf_cons_ne '_' e U (dm' ++ ('_' :: '_' :: V)) he
  | cons e dk' ih =>
    intro dm U V hdk hdm hne
    cases dm with
    | nil =>
      have he : ¬ e = '_' := hdk e (List.mem_cons_self e dk')
      simp only [List.cons_append, List.nil_append]
      exact isPrefixOf_cons_ne e '_' (dk' ++ ('_' :: U)) ('_' :: V) he
    | cons e2 dm' =>
      by_cases heq : e = e2
      · subst heq
        have hne' : ¬ dk' = dm' := fun h => hne (by rw [h])
        have hrec := ih dm' U V (fun c hc => hdk c (List.mem_cons_of_mem e hc))
          (fun c hc => hdm c (List.mem_cons_of_mem e hc)) hne'
        simp [List.cons_append, List.isPrefixOf, hrec]
      · simp only [List.cons_append]
        exact isPrefixOf_cons_ne e e2 (dk' ++ ('_' :: U)) (dm' ++ ('_' :: '_' :: V)) heq

theorem tok_not_prefix_tok (k m : Nat) (Z : List Char) (hkm : ¬ k = m) :
    (placeholderTok k).isPrefixOf (placeholderTok m ++ Z) = false := by
  have hk := tok_split k
  have hm : placeholderTok m ++ Z
      = ("__PROTECTED_".data) ++ ((Nat.repr m).data ++ ('_' :: '_' :: Z)) := by
    simp [placeholderTok, List.append_assoc]
  rw [hk, hm, isPrefixOf_cancel]
  have hdd : ¬ (Nat.repr k).data = (Nat.repr m).data :=
    fun h => hkm (repr_data_inj k m h)
  have h1 := digits_ne_not_prefix ((Nat.repr k).data) ((Nat.repr m).data) ['_'] Z
    (fun c hc => repr_data_ne_underscore k c hc)
    (fun c hc => repr_data_ne_underscore m c hc) hdd
  simpa using h1

theorem chain_no_tok_prefix :
    ∀ (m : Nat) (tbl : List (List Char)) (s orig : List Char),
      Chain m tbl s orig →
      hasOcc ("PROTECTED".data) orig = false →
      ∀ k, k < m → ∀ s₀, s₀ <:+ s →
      (placeholderTok k).isPrefixOf s₀ = false := by
  intro m tbl s orig h
  induction h with
  | base km X =>
    intro hno k hk s₀ hs
    rcases s₀ with _ | ⟨c, s₁⟩
    · rw [tok_eq k]; simp [List.isPrefixOf]
    · obtain ⟨u, hu⟩ := hs
      rw [← hu] at hno
      have hnoS : hasOcc ("PROTECTED".data) (c :: s₁) = false :=
        hasOcc_append_right _ u _ hno
      cases hp : (placeholderTok k).isPrefixOf (c :: s₁) with
      | false => rfl
      | true =>
        exfalso
        rw [tok_split k] at hp
        have hw := isPrefixOf_weaken ("__PROTECTED_".data) _ _ hp
        have hblock := prefix_block_p12 (c :: s₁) [] hnoS (by simp) (Or.inl rfl)
        rw [List.append_nil] at hblock
        rw [hw] at hblock
        exact absurd hblock (by decide)
  | step km tbl2 X e s' orig' hch ih =>
    intro hno k hk s₀ hs
    have hnoX : hasOcc ("PROTECTED".data) X = false :=
      hasOcc_append_left _ (by decide) X (e ++ orig') hno
    have hno' : hasOcc ("PROTECTED".data) orig' = false := by
      have h1 := hasOcc_append_right ("PROTECTED".data) X (e ++ orig') hno
      exact hasOcc_append_right _ e orig' h1
    rcases suffix_split X (placeholderTok km ++ s') s₀ hs with h | ⟨X', hX', hne', rfl⟩
    · rw [tok_cons km s'] at h
      rcases List.suffix_cons_iff.mp h with rfl | h
      · have hfull := tok_not_prefix_tok k km s' (by omega)
        rw [tok_cons km s'] at hfull
        exact hfull
      rcases List.suffix_cons_iff.mp h with rfl | h
      · rw [tok_eq k]; simp [List.isPrefixOf]
      rcases List.suffix_cons_iff.mp h with rfl | h
      · rw [tok_eq k]; simp [List.isPrefixOf]
      rcases List.suffix_cons_iff.mp h with rfl | h
      · rw [tok_eq k]; simp [List.isPrefixOf]
      rcases List.suffix_cons_iff.mp h with rfl | h
      · rw [tok_eq k]; simp [List.isPrefixOf]
      rcases List.suffix_cons_iff.mp h with rfl | h
      · rw [tok_eq k]; simp [List.isPrefixOf]
      rcases List.suffix_cons_iff.mp h with rfl | h
      · rw [tok_eq k]; simp [List.isPrefixOf]
      rcases List.suffix_cons_iff.mp h with rfl | h
      · rw [tok_eq k]; simp [List.isPrefixOf]
      rcases List.suffix_cons_iff.mp h with rfl | h
      · rw [tok_eq k]; simp [List.isPrefixOf]
      rcases List.suffix_cons_iff.mp h with rfl | h
      · rw [tok_eq k]; simp [List.isPrefixOf]
      rcases List.suffix_cons_iff.mp h with rfl | h
      · rw [tok_eq k]; simp [List.isPrefixOf]
      rcases List.suffix_cons_iff.mp h with rfl | h
      · rcases hd : (Nat.repr km).data with _ | ⟨d0, dtl⟩
        · exact absurd hd (repr_data_ne_nil km)
        have hd0 : ¬ d0 = '_' :=
          repr_data_ne_underscore km d0 (by rw [hd]; exact List.mem_cons_self _ _)
        have hds : ¬ ('_' : Char) = d0 := fun hh => hd0 hh.symm
        rw [tok_eq k]
        simp [List.isPrefixOf, hds]
      rcases suffix_split ((Nat.repr km).data) ('_' :: '_' :: s') s₀ h with h2 | ⟨D', hD', hneD, rfl⟩
      · rcases List.suffix_cons_iff.mp h2 with rfl | h2
        · rw [tok_eq k]
          simp only [List.isPrefixOf, beq_self_eq_true, Bool.true_and]
          have hform : ('P' :: 'R' :: 'O' :: 'T' :: 'E' :: 'C' :: 'T' :: 'E' :: 'D' :: '_'
              :: ((Nat.repr k).data ++ ('_' :: '_' :: [])))
              = ("PROTECTED_".data) ++ ((Nat.repr k).data ++ ('_' :: '_' :: [])) := rfl
          rw [hform]
          apply isPrefixOf_false_mono
          cases hch with
          | base =>
            have hb := prefix_block_p10 s' [] hno' (Or.inl rfl)
            rwa [List.append_nil] at hb
          | step k2 tbl3 X2 e2 s2 orig2 hch2 =>
            have hnoX2 : hasOcc ("PROTECTED".data) X2 = false :=
              hasOcc_append_left _ (by decide) X2 _ hno'
            exact prefix_block_p10 X2 _ hnoX2 (Or.inr ⟨_, tok_cons (km + 1) s2⟩)
        · rcases List.suffix_cons_iff.mp h2 with rfl | h2
          · rw [tok_eq k]
            simp only [List.isPrefixOf, beq_self_eq_true, Bool.true_and]
            have hform : ('_' :: 'P' :: 'R' :: 'O' :: 'T' :: 'E' :: 'C' :: 'T' :: 'E' :: 'D'
                :: '_' :: ((Nat.repr k).data ++ ('_' :: '_' :: [])))
                = ("_PROTECTED_".data) ++ ((Nat.repr k).data ++ ('_' :: '_' :: [])) := rfl
            rw [hform]
            apply isPrefixOf_false_mono
            cases hch with
            | base =>
              have hb := prefix_block_p11 s' [] hno' (Or.inl rfl)
              rwa [List.append_nil] at hb
            | step k2 tbl3 X2 e2 s2 orig2 hch2 =>
              have hnoX2 : hasOcc ("PROTECTED".data) X2 = false :=
                hasOcc_append_left _ (by decide) X2 _ hno'
              exact prefix_block_p11 X2 _ hnoX2 (Or.inr ⟨_, tok_cons (km + 1) s2⟩)
          · exact ih hno' k (by omega) s₀ h2
      · rcases D' with _ | ⟨d0, Dtl⟩
        · exact absurd rfl hneD
        have hd0 : ¬ d0 = '_' :=
          repr_data_ne_underscore km d0 (hD'.subset (List.mem_cons_self _ _))
        have hds : ¬ ('_' : Char) = d0 := fun hh => hd0 hh.symm
        rw [tok_eq k]
        simp [List.isPrefixOf, hds]
    · have hnoX' : hasOcc ("PROTECTED".data) X' = false := by
        obtain ⟨u, hu⟩ := hX'
        rw [← hu] at hnoX
        exact hasOcc_append_right _ u X' hnoX
      cases hp : (placeholderTok k).isPrefixOf (X' ++ (placeholderTok km ++ s')) with
      | false => rfl
      | true =>
        exfalso
        rw [tok_split k] at hp
        have hw := isPrefixOf_weaken ("__PROTECTED_".data) _ _ hp
        have hblock := prefix_block_p12 X' (placeholderTok km ++ s') hnoX' hne'
          (Or.inr ⟨_, tok_cons km s'⟩)
        rw [hw] at hblock
        exact absurd hblock (by decide)

theorem replaceAllGo_id (needle r : List Char) :
    ∀ f s, (∀ s₀, s₀ <:+ s → needle.isPrefixOf s₀ = false) →
      replaceAllGo f needle r s = s := by
  intro f
  induction f with
  | zero => intro s _; rfl
  | succ f ih =>
    intro s hno
    cases s with
    | nil => rfl
    | cons c tl =>
      have h1 : needle.isPrefixOf (c :: tl) = false := hno _ (List.suffix_refl _)
      simp only [replaceAllGo, h1, Bool.false_eq_true, if_false]
      rw [ih tl (fun s₀ hs => hno s₀ (hs.trans (List.suffix_cons c tl)))]

theorem replaceAllGo_skip_block (needle r : List Char) :
    ∀ (B Z : List Char) (f : Nat),
      (∀ B', B' <:+ B → ¬ B' = [] → needle.isPrefixOf (B' ++ Z) = false) →
      replaceAllGo (B.length + f) needle r (B ++ Z) = B ++ replaceAllGo f needle r Z := by
  intro B
  induction B with
  | nil => intro Z f _; simp
  | cons b B ih =>
    intro Z f hcond
    have h1 : needle.isPrefixOf ((b :: B) ++ Z) = false :=
      hcond (b :: B) (List.suffix_refl _) (by simp)
    have hl : (b :: B).length + f = (B.length + f) + 1 := by
      simp only [List.length_cons]; omega
    rw [hl]
    rw [List.cons_append] at h1
    rw [List.cons_append]
    simp only [replaceAllGo, h1, Bool.false_eq_true, if_false]
    rw [ih Z f (fun B' hB' hne => hcond B' (hB'.trans (List.suffix_cons b B)) hne)]
    rfl

theorem replaceAll_block (n : Char) (ns e B Y : List Char)
    (hB : ∀ B', B' <:+ B → ¬ B' = [] →
      (n :: ns).isPrefixOf (B' ++ ((n :: ns) ++ Y)) = false)
    (hY : ∀ s₀, s₀ <:+ Y → (n :: ns).isPrefixOf s₀ = false) :
    replaceAll (n :: ns) e (B ++ ((n :: ns) ++ Y)) = (B ++ e) ++ Y := by
  show replaceAllGo ((B ++ ((n :: ns) ++ Y)).length + 1) (n :: ns) e
      (B ++ ((n :: ns) ++ Y)) = (B ++ e) ++ Y
  have hlen : (B ++ ((n :: ns) ++ Y)).length + 1
      = B.length + (((n :: ns).length + Y.length) + 1) := by
    simp only [List.length_append, List.length_cons]
    omega
  rw [hlen, replaceAllGo_skip_block (n :: ns) e B ((n :: ns) ++ Y) _ hB,
    replaceAllGo_hit n ns e Y ((n :: ns).length + Y.length),
    replaceAllGo_id (n :: ns) e _ Y hY]
  simp [List.append_assoc]

theorem chain_restore :
    ∀ (k : Nat) (tbl : List (List Char)) (s orig : List Char),
      Chain k tbl s orig →
      ∀ A : List Char, hasOcc ("PROTECTED".data) (A ++ orig) = false →
      restoreAux tbl k (A ++ s) = A ++ orig := by
  intro k tbl s orig h
  induction h with
  | base km X => intro A hno; rfl
  | step km tbl2 X e s' orig' hch ih =>
    intro A hno
    have hnoAX2 : hasOcc ("PROTECTED".data) ((A ++ X) ++ (e ++ orig')) = false := by
      rw [show (A ++ X) ++ (e ++ orig') = A ++ (X ++ (e ++ orig')) from by
        simp [List.append_assoc]]
      exact hno
    have hnoB : hasOcc ("PROTECTED".data) (A ++ X) = false :=
      hasOcc_append_left _ (by decide) _ _ hnoAX2
    have hno' : hasOcc ("PROTECTED".data) orig' = false :=
      hasOcc_append_right _ e orig' (hasOcc_append_right _ (A ++ X) _ hnoAX2)
    have hcondB : ∀ B', B' <:+ (A ++ X) → ¬ B' = [] →
        (placeholderTok km).isPrefixOf (B' ++ (placeholderTok km ++ s')) = false := by
      intro B' hB' hne
      have hnoB' : hasOcc ("PROTECTED".data) B' = false := by
        obtain ⟨u, hu⟩ := hB'
        rw [← hu] at hnoB
        exact hasOcc_append_right _ u B' hnoB
      cases hp : (placeholderTok km).isPrefixOf (B' ++ (placeholderTok km ++ s')) with
      | false => rfl
      | true =>
        exfalso
        rw [tok_split km] at hp
        have hw := isPrefixOf_weaken ("__PROTECTED_".data) _ _ hp
        have hblock := prefix_block_p12 B' (placeholderTok km ++ s') hnoB' hne
          (Or.inr ⟨_, tok_cons km s'⟩)
        rw [tok_split km] at hblock
        rw [hw] at hblock
        exact absurd hblock (by decide)
    have hY : ∀ s₀, s₀ <:+ s' → (placeholderTok km).isPrefixOf s₀ = false :=
      fun s₀ hs => chain_no_tok_prefix (km + 1) tbl2 s' orig' hch hno' km (by omega) s₀ hs
    have hrepl : replaceAll (placeholderTok km) e ((A ++ X) ++ (placeholderTok km ++ s'))
        = ((A ++ X) ++ e) ++ s' := by
      rw [tok_eq km]
      refine replaceAll_block '_' _ e (A ++ X) s' ?_ ?_
      · intro B' hB' hne
        have hcc := hcondB B' hB' hne
        rw [tok_eq km] at hcc
        exact hcc
      · intro s₀ hs
        have hcc := hY s₀ hs
        rw [tok_eq km] at hcc
        exact hcc
    show restoreAux tbl2 (km + 1)
        (replaceAll (placeholderTok km) e (A ++ (X ++ (placeholderTok km ++ s'))))
      = A ++ (X ++ (e ++ orig'))
    rw [show A ++ (X ++ (placeholderTok km ++ s'))
        = (A ++ X) ++ (placeholderTok km ++ s') from by simp [List.append_assoc]]
    rw [hrepl]
    have hih := ih ((A ++ X) ++ e) (by
      rw [show ((A ++ X) ++ e) ++ orig' = A ++ (X ++ (e ++ orig')) from by
        simp [List.append_assoc]]
      exact hno)
    rw [hih]
    simp [List.append_assoc]

theorem scanSpan_decomp :
    ∀ (rest inner rest' : List Char), scanSpan rest = some (inner, rest') →
      rest = inner ++ '\x7d' :: rest' := by
  intro rest
  induction rest with
  | nil => intro inner rest' h; cases h
  | cons c tl ih =>
    intro inner rest' h
    by_cases h1 : c = '\x7d'
    · subst h1
      simp only [scanSpan, if_pos rfl, Option.some.injEq, Prod.mk.injEq] at h
      obtain ⟨rfl, rfl⟩ := h
      simp
    · by_cases h2 : c = '\x7b'
      · simp [scanSpan, h1, h2] at h
      · simp only [scanSpan, h1, h2, if_false] at h
        cases hscan : scanSpan tl with
        | none => rw [hscan] at h; cases h
        | some p =>
          rw [hscan] at h
          simp only [Option.map, Option.some.injEq, Prod.mk.injEq] at h
          obtain ⟨rfl, rfl⟩ := h
          have hd := ih p.1 p.2 (by rw [hscan])
          simp [hd]

theorem chain_cons (k : Nat) (tbl : List (List Char)) (s orig : List Char) (c : Char)
    (h : Chain k tbl s orig) : Chain k tbl (c :: s) (c :: orig) := by
  cases h with
  | base => exact Chain.base k _
  | step km tbl2 X e s' orig' hch =>
    have hst := Chain.step k tbl2 (c :: X) e s' orig' hch
    simpa using hst

theorem protect_chain :
    ∀ (f : Nat) (cs : List Char) (k : Nat), cs.length ≤ f →
      Chain k (protectGo f cs k).2 (protectGo f cs k).1 cs := by
  intro f
  induction f with
  | zero =>
    intro cs k hlen
    cases cs with
    | nil => exact Chain.base k []
    | cons c tl => simp at hlen
  | succ f ih =>
    intro cs k hlen
    cases cs with
    | nil => exact Chain.base k []
    | cons c rest =>
      by_cases hc : c = '\x7b'
      · subst hc
        cases hscan : scanSpan rest with
        | none =>
          have hch := ih rest k (by simp only [List.length_cons] at hlen; omega)
          simp only [protectGo, if_pos rfl, hscan]
          exact chain_cons k _ _ rest '\x7b' hch
        | some p =>
          obtain ⟨inner, rest'⟩ := p
          have hdec := scanSpan_decomp rest inner rest' hscan
          have hlt : rest'.length ≤ f := by
            rw [hdec] at hlen
            simp only [List.length_cons, List.length_append] at hlen
            omega
          have hch := ih rest' (k + 1) hlt
          simp only [protectGo, if_pos rfl, hscan]
          have hst := Chain.step k (protectGo f rest' (k + 1)).2 []
            ('\x7b' :: (inner ++ ['\x7d'])) (protectGo f rest' (k + 1)).1 rest' hch
          rw [hdec]
          simpa [List.append_assoc] using hst
      · have hch := ih rest k (by simp only [List.length_cons] at hlen; omega)
        simp only [protectGo, hc, if_false]
        exact chain_cons k _ _ rest c hch

/-- C2 counterexample: the round-trip is not the identity on every buffer.
On `__PROTECTED_0__\x7bx\x7d` the brace span becomes placeholder 0, so the
buffer holds two copies of the placeholder text, and restoration's literal
replacement rewrites both, producing `\x7bx\x7d\x7bx\x7d`. -/
theorem c2_roundtrip_counterexample :
    protectRestore ("__PROTECTED_0__\x7bx\x7d".data) = ("\x7bx\x7d\x7bx\x7d".data) ∧
    ¬ protectRestore ("__PROTECTED_0__\x7bx\x7d".data) = ("__PROTECTED_0__\x7bx\x7d".data) := by
  decide

/-- C2 amended: protecting then immediately restoring (without
modification) reproduces the original buffer exactly, for every buffer in
which the letter sequence `PROTECTED` does not occur — so placeholder
collisions with pre-existing text are excluded. -/
theorem c2_roundtrip_amended (cs : List Char)
    (hno : hasOcc ("PROTECTED".data) cs = false) :
    protectRestore cs = cs := by
  have hch := protect_chain (cs.length + 1) cs 0 (by omega)
  have hres := chain_restore 0 (protectGo (cs.length + 1) cs 0).2
    (protectGo (cs.length + 1) cs 0).1 cs hch [] (by simpa using hno)
  simpa [protectRestore, protectExpressions] using hres

/-- C2 witness: the round-trip at the concrete buffer `a \x7bb\x7d c \x7bd\x7d e`. -/
theorem c2_roundtrip_amended_witness :
    protectRestore ("a \x7bb\x7d c \x7bd\x7d e".data) = ("a \x7bb\x7d c \x7bd\x7d e".data) :=
  c2_roundtrip_amended ("a \x7bb\x7d c \x7bd\x7d e".data) (by decide)

/-- The element pattern's greedy tag backtracks against the backreference:
`<abc>x</ab>` matches with tag `ab`, attribute span `c` and child `x`, and
is therefore converted rather than passed through. -/
theorem elemMatch_backtrack_example :
    elemMatch ("<abc>x</ab>".data) = some (("ab".data), ("c".data), ("x".data)) ∧
    convert_jsx_element ("<abc>x</ab>".data) [] =
      ("React.createElement(\n  \x27ab\x27,\n  \x7b c: true \x7d,\n  \x27x\x27\n)".data) := by
  decide
